import Mathlib

/-!
Shallow embedding of the fast-BM25 repository (src/index.ts, src/tokenizer.ts,
src/worker.ts) and proofs about its specification claims.

Modelling conventions:
* JavaScript `Map` objects are association lists in insertion order
  (`Map.set` of an existing key updates in place, a new key appends).
* `Uint32Array` objects are `List ℕ`; an in-bounds write stores the value
  mod 2^32 and an out-of-bounds write is silently dropped, as for JS typed
  arrays; an out-of-bounds read yields `none` (JS `undefined`).
* JS floating-point numbers are modelled as `Option ℚ`, where `none` stands
  for a non-finite value (NaN); the arithmetic on reachable index states
  never produces an infinity that behaves differently from NaN in the
  expressions the code evaluates (the only zero divisors arising are of the
  0/0 form), so `none`-propagation is exact there.
* The tokenizer as seen by the index (`BM25` field `tokenizer`) is a fixed
  function `String → List String` on non-empty inputs; `tokenize` throws
  exactly on the empty string (the only falsy string).
-/

namespace FastBM25

set_option allowUnsafeReducibility true
attribute [local semireducible] Rat.add Rat.mul Rat.inv Rat.sub Rat.div Rat.neg

/-- Error message thrown by `Tokenizer.tokenize` on empty input. -/
def errEmptyText : String := "Input text cannot be null or empty"

/-- Error message thrown by `BM25.addDocument` on a null document. -/
def errNullDoc : String := "Document cannot be null"

/-- Error message thrown by `BM25.getDocument` on an out-of-range index. -/
def errOOB : String := "Document index out of bounds"

/-- A JS number: `some q` is the finite value `q`, `none` a non-finite value. -/
abbrev JSNum := Option ℚ

/-- JS addition on possibly non-finite numbers. -/
def jadd : JSNum → JSNum → JSNum
  | some a, some b => some (a + b)
  | _, _ => none

/-- JS multiplication on possibly non-finite numbers. -/
def jmul : JSNum → JSNum → JSNum
  | some a, some b => some (a * b)
  | _, _ => none

/-- JS division; a zero divisor yields a non-finite value.  On the states the
index code reaches, a zero divisor only occurs with a zero dividend (0/0,
which is NaN in JS), so collapsing non-finite values is exact. -/
def jdiv : JSNum → JSNum → JSNum
  | some a, some b => if b = 0 then none else some (a / b)
  | _, _ => none

/-- Modulus of JS `ToUint32`. -/
def WRAP : ℕ := 2 ^ 32

/-- Truncation toward zero of a rational, as JS `ToUint32` does first. -/
def qtrunc (q : ℚ) : ℤ := if 0 ≤ q then q.floor else -((-q).floor)

/-- JS `ToUint32`: truncate toward zero, then take the value mod 2^32. -/
def toUint32 (q : ℚ) : ℕ := ((qtrunc q).emod (2 ^ 32)).toNat

/-- Write into a `Uint32Array`: in bounds stores mod 2^32, out of bounds is
a silent no-op. -/
def u32set (l : List ℕ) (i v : ℕ) : List ℕ :=
  if i < l.length then l.set i (v % WRAP) else l

/-- The `arr[i]++` operation on a `Uint32Array`: out of bounds it is dropped. -/
def u32incr (l : List ℕ) (i : ℕ) : List ℕ :=
  match l.get? i with
  | none => l
  | some v => l.set i ((v + 1) % WRAP)

/-- First binding of a key in an insertion-ordered association list
(JS `Map.get`). -/
def alookup {κ β : Type} [DecidableEq κ] (l : List (κ × β)) (k : κ) : Option β :=
  (l.find? (fun p => decide (p.1 = k))).map (fun p => p.2)

/-- JS `Map.set`: update the existing binding in place, else append. -/
def aset {κ β : Type} [DecidableEq κ] (l : List (κ × β)) (k : κ) (v : β) :
    List (κ × β) :=
  if (l.find? (fun p => decide (p.1 = k))).isSome then
    l.map (fun p => if p.1 = k then (k, v) else p)
  else l ++ [(k, v)]

/-- JS `Set` of a token list: first-occurrence order, duplicates removed. -/
def firstDedup (l : List String) : List String :=
  l.foldl (fun acc t => if acc.contains t then acc else acc ++ [t]) []

/-- A document: field name to field text, in `Object.entries` order. -/
abbrev Doc := List (String × String)

/-- `Tokenizer.tokenize` at the interface the index uses: throws exactly on
the empty string, otherwise applies the tokenizer function `tok`. -/
def tokenizeE (tok : String → List String) (text : String) :
    Except String (List String) :=
  if text = "" then .error errEmptyText else .ok (tok text)

/-- Configuration of one `BM25` instance: `k1`, `b`, the field boosts, and
the behaviour of its tokenizer on non-empty text. -/
structure BM25Config where
  k1 : ℚ
  b : ℚ
  fieldBoosts : List (String × ℚ)
  tok : String → List String

/-- `this.fieldBoosts[field] || 1`: a missing or zero (falsy) boost is 1. -/
def boostOf (boosts : List (String × ℚ)) (f : String) : ℚ :=
  match alookup boosts f with
  | none => 1
  | some b => if b = 0 then 1 else b

/-- The mutable state of a `BM25` instance. -/
structure BM25State where
  documents : List Doc
  documentLengths : List ℕ
  termToIndex : List (String × ℕ)
  documentFrequency : List ℕ
  averageDocLength : ℚ
  termFrequencies : List (ℕ × List (ℕ × ℚ))
deriving DecidableEq

/-- The state a `BM25` instance starts from (and returns to on
`clearDocuments`). -/
def emptyState : BM25State :=
  { documents := []
    documentLengths := []
    termToIndex := []
    documentFrequency := []
    averageDocLength := 0
    termFrequencies := [] }

/-- `BM25.clearDocuments`. -/
def clearDocuments (_ : BM25State) : BM25State := emptyState

/-- One term of one field inside `BM25.addDocument` (index.ts lines 360-378):
register the term, grow the document-frequency array by doubling when the
term index is beyond it, increment the document frequency, and store the raw
(unboosted) occurrence count of the term in this field for this document. -/
def addTermToDoc (st : BM25State) (docIndex : ℕ) (tokens : List String)
    (term : String) : BM25State :=
  let st :=
    if (alookup st.termToIndex term).isSome then st
    else { st with termToIndex := st.termToIndex ++ [(term, st.termToIndex.length)] }
  let termIndex := (alookup st.termToIndex term).getD 0
  let df :=
    if st.documentFrequency.length ≤ termIndex then
      st.documentFrequency ++ List.replicate st.documentFrequency.length 0
    else st.documentFrequency
  let st := { st with documentFrequency := u32incr df termIndex }
  let st :=
    if (alookup st.termFrequencies termIndex).isSome then st
    else { st with termFrequencies := st.termFrequencies ++ [(termIndex, [])] }
  let freq : ℚ := (tokens.countP (fun t => decide (t = term)) : ℕ)
  let tfm := (alookup st.termFrequencies termIndex).getD []
  { st with termFrequencies := aset st.termFrequencies termIndex (aset tfm docIndex freq) }

/-- The field loop of `BM25.addDocument`: tokenize each field (which may
throw), accumulate the boosted document length, and update term statistics.
On a throw, the mutations already made persist (the JS object is mutated in
place before the exception propagates). -/
def addFields (cfg : BM25Config) (docIndex : ℕ) :
    List (String × String) → ℚ → BM25State →
    Except (BM25State × String) (BM25State × ℚ)
  | [], acc, st => .ok (st, acc)
  | (f, content) :: rest, acc, st =>
    match tokenizeE cfg.tok content with
    | .error e => .error (st, e)
    | .ok tokens =>
      let acc := acc + (tokens.length : ℚ) * boostOf cfg.fieldBoosts f
      let st := (firstDedup tokens).foldl
        (fun s term => addTermToDoc s docIndex tokens term) st
      addFields cfg docIndex rest acc st

/-- `BM25.addDocument`.  Returns the state after the call together with the
raised error, if any.  The document is pushed before any field is processed,
so a mid-way tokenizer error leaves the document stored and earlier fields
already applied. -/
def addDocument (cfg : BM25Config) (st : BM25State) (doc? : Option Doc) :
    BM25State × Option String :=
  match doc? with
  | none => (st, some errNullDoc)
  | some doc =>
    let docIndex := st.documentLengths.length
    let st1 := { st with documents := st.documents ++ [doc] }
    match addFields cfg docIndex doc 0 st1 with
    | .error (st2, e) => (st2, some e)
    | .ok (st2, docLength) =>
      let newLengths := st2.documentLengths ++ [toUint32 docLength]
      let total : ℚ := (newLengths.sum : ℕ)
      ({ st2 with
          documentLengths := newLengths
          averageDocLength := total / (newLengths.length : ℚ) }, none)

/-- `BM25.addDocuments`: `docs.forEach((doc) => this.addDocument(doc))` with
no await and no catch — a rejected call does not stop the loop and its
synchronous mutations persist. -/
def addDocuments (cfg : BM25Config) (st : BM25State) (docs : List Doc) :
    BM25State :=
  docs.foldl (fun s d => (addDocument cfg s (some d)).1) st

/-- Result shape of `BM25.processDocuments` (the bulk constructor path). -/
structure ProcResult where
  documentLengths : List ℕ
  termToIndex : List (String × ℕ)
  documentFrequency : List ℕ
  averageDocLength : ℚ
  termFrequencies : List (ℕ × List (ℕ × ℚ))
deriving DecidableEq

/-- Intermediate accumulator of the bulk build. -/
structure BulkAcc where
  termToIndex : List (String × ℕ)
  termDocs : List (String × List ℕ)
  termFrequencies : List (ℕ × List (ℕ × ℚ))
  nextTermIndex : ℕ
deriving DecidableEq

/-- One term of one field in `BM25.processDocuments` (index.ts lines 92-110):
register the term, record document membership, and accumulate the boosted
occurrence count into the (term, document) frequency. -/
def bulkAddTerm (docIndex : ℕ) (tokens : List String) (fieldBoost : ℚ)
    (acc : BulkAcc) (term : String) : BulkAcc :=
  let acc :=
    if (alookup acc.termToIndex term).isSome then acc
    else { acc with
            termToIndex := acc.termToIndex ++ [(term, acc.nextTermIndex)]
            nextTermIndex := acc.nextTermIndex + 1 }
  let termIndex := (alookup acc.termToIndex term).getD 0
  let acc :=
    if (alookup acc.termDocs term).isSome then acc
    else { acc with termDocs := acc.termDocs ++ [(term, [])] }
  let tds := (alookup acc.termDocs term).getD []
  let acc := { acc with
    termDocs := aset acc.termDocs term
      (if tds.contains docIndex then tds else tds ++ [docIndex]) }
  let acc :=
    if (alookup acc.termFrequencies termIndex).isSome then acc
    else { acc with termFrequencies := acc.termFrequencies ++ [(termIndex, [])] }
  let freq : ℚ := (tokens.countP (fun t => decide (t = term)) : ℕ) * fieldBoost
  let m := (alookup acc.termFrequencies termIndex).getD []
  let existing := (alookup m docIndex).getD 0
  { acc with
    termFrequencies := aset acc.termFrequencies termIndex
      (aset m docIndex (existing + freq)) }

/-- The field loop of `BM25.processDocuments` for one document. -/
def bulkFields (boosts : List (String × ℚ)) (tok : String → List String)
    (docIndex : ℕ) :
    List (String × String) → ℚ → BulkAcc → Except String (BulkAcc × ℚ)
  | [], acc, b => .ok (b, acc)
  | (f, content) :: rest, acc, b =>
    match tokenizeE tok content with
    | .error e => .error e
    | .ok tokens =>
      let fieldBoost := boostOf boosts f
      let acc := acc + (tokens.length : ℚ) * fieldBoost
      let b := (firstDedup tokens).foldl
        (fun a term => bulkAddTerm docIndex tokens fieldBoost a term) b
      bulkFields boosts tok docIndex rest acc b

/-- The document loop of `BM25.processDocuments`, accumulating the truncated
stored lengths and the floating-point total. -/
def bulkDocs (boosts : List (String × ℚ)) (tok : String → List String) :
    List Doc → ℕ → List ℕ → ℚ → BulkAcc →
    Except String (List ℕ × ℚ × BulkAcc)
  | [], _, lengths, total, b => .ok (lengths, total, b)
  | doc :: rest, docIndex, lengths, total, b =>
    match bulkFields boosts tok docIndex doc 0 b with
    | .error e => .error e
    | .ok (b, docLength) =>
      bulkDocs boosts tok rest (docIndex + 1)
        (lengths ++ [toUint32 docLength]) (total + docLength) b

/-- `BM25.processDocuments` (index.ts lines 70-130): the bulk constructor
path.  Term frequencies are boosted and accumulated per field; document
frequency is derived from the per-term document sets. -/
def processDocuments (cfg : BM25Config) (docs : List Doc) :
    Except String ProcResult :=
  match bulkDocs cfg.fieldBoosts cfg.tok docs 0 [] 0
      ⟨[], [], [], 0⟩ with
  | .error e => .error e
  | .ok (lengths, total, b) =>
    let df := b.termDocs.foldl
      (fun arr p => u32set arr ((alookup b.termToIndex p.1).getD 0) p.2.length)
      (List.replicate b.termToIndex.length 0)
    .ok { documentLengths := lengths
          termToIndex := b.termToIndex
          documentFrequency := df
          averageDocLength := total / (docs.length : ℚ)
          termFrequencies := b.termFrequencies }

/-- Result a worker posts back (worker.ts lines 60-67). -/
structure WorkerResult where
  documentLengths : List ℕ
  termToIndex : List (String × ℕ)
  documentFrequency : List ℕ
  averageDocLength : ℚ
  termFrequencies : List (ℕ × List (ℕ × ℚ))
  documentCount : ℕ
deriving DecidableEq

/-- One term of one field in the worker's `processDocuments` (worker.ts
lines 24-40): like the bulk path, except the stored frequency is the raw
(unboosted) count and it overwrites rather than accumulates. -/
def workerAddTerm (docIndex : ℕ) (tokens : List String)
    (acc : BulkAcc) (term : String) : BulkAcc :=
  let acc :=
    if (alookup acc.termToIndex term).isSome then acc
    else { acc with
            termToIndex := acc.termToIndex ++ [(term, acc.nextTermIndex)]
            nextTermIndex := acc.nextTermIndex + 1 }
  let termIndex := (alookup acc.termToIndex term).getD 0
  let acc :=
    if (alookup acc.termDocs term).isSome then acc
    else { acc with termDocs := acc.termDocs ++ [(term, [])] }
  let tds := (alookup acc.termDocs term).getD []
  let acc := { acc with
    termDocs := aset acc.termDocs term
      (if tds.contains docIndex then tds else tds ++ [docIndex]) }
  let acc :=
    if (alookup acc.termFrequencies termIndex).isSome then acc
    else { acc with termFrequencies := acc.termFrequencies ++ [(termIndex, [])] }
  let freq : ℚ := (tokens.countP (fun t => decide (t = term)) : ℕ)
  let m := (alookup acc.termFrequencies termIndex).getD []
  { acc with
    termFrequencies := aset acc.termFrequencies termIndex (aset m docIndex freq) }

/-- The field loop of the worker's `processDocuments` for one document. -/
def workerFields (boosts : List (String × ℚ)) (tokW : String → List String)
    (docIndex : ℕ) :
    List (String × String) → ℚ → BulkAcc → Except String (BulkAcc × ℚ)
  | [], acc, b => .ok (b, acc)
  | (f, content) :: rest, acc, b =>
    match tokenizeE tokW content with
    | .error e => .error e
    | .ok tokens =>
      let acc := acc + (tokens.length : ℚ) * boostOf boosts f
      let b := (firstDedup tokens).foldl
        (fun a term => workerAddTerm docIndex tokens a term) b
      workerFields boosts tokW docIndex rest acc b

/-- The document loop of the worker's `processDocuments`. -/
def workerDocs (boosts : List (String × ℚ)) (tokW : String → List String) :
    List Doc → ℕ → List ℕ → ℚ → BulkAcc →
    Except String (List ℕ × ℚ × BulkAcc)
  | [], _, lengths, total, b => .ok (lengths, total, b)
  | doc :: rest, docIndex, lengths, total, b =>
    match workerFields boosts tokW docIndex doc 0 b with
    | .error e => .error e
    | .ok (b, docLength) =>
      workerDocs boosts tokW rest (docIndex + 1)
        (lengths ++ [toUint32 docLength]) (total + docLength) b

/-- `processDocuments` of worker.ts (lines 5-68).  The worker receives only
`{ fieldBoosts }` in its options (index.ts line 155), so its tokenizer `tokW`
is a default-configured tokenizer, independent of the instance's own
tokenizer settings. -/
def workerProcess (tokW : String → List String) (boosts : List (String × ℚ))
    (docs : List Doc) : Except String WorkerResult :=
  match workerDocs boosts tokW docs 0 [] 0 ⟨[], [], [], 0⟩ with
  | .error e => .error e
  | .ok (lengths, total, b) =>
    let df := b.termDocs.foldl
      (fun arr p => u32set arr ((alookup b.termToIndex p.1).getD 0) p.2.length)
      (List.replicate b.termToIndex.length 0)
    .ok { documentLengths := lengths
          termToIndex := b.termToIndex
          documentFrequency := df
          averageDocLength := total / (docs.length : ℚ)
          termFrequencies := b.termFrequencies
          documentCount := docs.length }

/-- Merge one worker result into the index at the given document offset
(index.ts lines 175-206). -/
def mergeResult (st : BM25State) (offset : ℕ) (r : WorkerResult) : BM25State :=
  let st := { st with
    documentLengths :=
      (List.range r.documentLengths.length).foldl
        (fun l i => u32set l (offset + i) (r.documentLengths.getD i 0))
        st.documentLengths }
  r.termToIndex.foldl (fun st p =>
    let term := p.1
    let localIdx := p.2
    let st :=
      if (alookup st.termToIndex term).isSome then st
      else { st with termToIndex := st.termToIndex ++ [(term, st.termToIndex.length)] }
    let newIndex := (alookup st.termToIndex term).getD 0
    let freqMap : List (ℕ × ℚ) :=
      ((r.termFrequencies.filter (fun q => decide (q.1 = localIdx))).flatMap
        (fun q => q.2)).map (fun q => (q.1 + offset, q.2))
    match alookup st.termFrequencies newIndex with
    | none => { st with termFrequencies := st.termFrequencies ++ [(newIndex, freqMap)] }
    | some m =>
      { st with
        termFrequencies := aset st.termFrequencies newIndex
          (freqMap.foldl (fun mm q => aset mm q.1 q.2) m) }) st

/-- `BM25.updateDocumentFrequency` (index.ts lines 216-221): rebuild the
document-frequency array from the term-frequency map sizes. -/
def updateDocumentFrequency (st : BM25State) : BM25State :=
  { st with
    documentFrequency :=
      st.termFrequencies.foldl (fun arr p => u32set arr p.1 p.2.length)
        (List.replicate st.termToIndex.length 0) }

/-- `BM25.recalculateAverageLength` (index.ts lines 223-226). -/
def recalcAvg (st : BM25State) : BM25State :=
  { st with
    averageDocLength :=
      ((st.documentLengths.sum : ℕ) : ℚ) / (st.documentLengths.length : ℚ) }

/-- `BM25.addDocumentsParallel` (index.ts lines 136-214).  `parts` is the
contiguous, order-preserving slicing of the batch dispatched to the workers
(the code slices by `ceil(len/numWorkers)`; the claims quantify over every
contiguous partition).  If any worker throws, the merge is never applied and
the caller's state is unchanged. -/
def addDocumentsParallel (cfg : BM25Config) (tokW : String → List String)
    (st : BM25State) (parts : List (List Doc)) : Except String BM25State :=
  let docs := parts.flatten
  if docs.isEmpty then .ok st
  else
    match parts.mapM (fun slice => workerProcess tokW cfg.fieldBoosts slice) with
    | .error e => .error e
    | .ok results =>
      let totalDocs := docs.length
      let st := { st with
        documentLengths := st.documentLengths ++ List.replicate totalDocs 0 }
      let startIndex := st.documents.length
      let st := { st with documents := st.documents ++ docs }
      let st := (results.foldl
        (fun p r => (mergeResult p.1 p.2 r, p.2 + r.documentCount))
        (st, startIndex)).1
      .ok (recalcAvg (updateDocumentFrequency st))

/-- `BM25.calculateIDF` (index.ts lines 393-399).  `log` models `Math.log`
on positive finite arguments.  An out-of-bounds document-frequency read is
`undefined`, for which the `=== 0` guard fails and the arithmetic produces
NaN. -/
def calculateIDF (log : ℚ → ℚ) (st : BM25State) (termIndex : ℕ) : JSNum :=
  match st.documentFrequency.get? termIndex with
  | none => none
  | some 0 => some 0
  | some df =>
    let n : ℚ := (st.documentLengths.length : ℕ)
    some (log ((n - (df : ℚ) + 1 / 2) / ((df : ℚ) + 1 / 2) + 1))

/-- The BM25 normalized term frequency
`tf*(k1+1) / (tf + k1*(1 - b + b*docLen/avgLen))`. -/
def normTF (k1 b : ℚ) (tf : ℚ) (docLen : JSNum) (avg : ℚ) : JSNum :=
  jdiv (some (tf * (k1 + 1)))
    (jadd (some tf)
      (jmul (some k1)
        (jadd (some (1 - b)) (jdiv (jmul (some b) docLen) (some avg)))))

/-- `scores[docIndex] += idf * normalizedTF`, with typed-array out-of-bounds
semantics (a write past the end is dropped). -/
def jwriteAdd (sc : List JSNum) (i : ℕ) (v : JSNum) : List JSNum :=
  match sc.get? i with
  | none => sc
  | some old => sc.set i (jadd old v)

/-- The per-document accumulation of one query term's contributions in
`BM25.search` (index.ts lines 245-256). -/
def scoreDocFold (k1 b avg : ℚ) (lengths : List ℕ) (idf : JSNum)
    (tfs : List (ℕ × ℚ)) (scores : List JSNum) : List JSNum :=
  tfs.foldl (fun sc p =>
    let dl : JSNum := (lengths.get? p.1).map (fun n => (n : ℚ))
    jwriteAdd sc p.1 (jmul idf (normTF k1 b p.2 dl avg))) scores

/-- One query token's step in `BM25.search`: unknown terms contribute
nothing. -/
def scoreStep (cfg : BM25Config) (log : ℚ → ℚ) (st : BM25State)
    (scores : List JSNum) (term : String) : List JSNum :=
  match alookup st.termToIndex term with
  | none => scores
  | some ti =>
    scoreDocFold cfg.k1 cfg.b st.averageDocLength st.documentLengths
      (calculateIDF log st ti) ((alookup st.termFrequencies ti).getD []) scores

/-- `Array.from({length}, (_, i) => ({index: i, score: scores[i]}))`. -/
def withIdx {γ : Type} (l : List γ) : List (ℕ × γ) :=
  (List.range l.length).zip l

/-- `.filter((result) => result.score > 0)`: NaN fails the comparison. -/
def filterPos (l : List (ℕ × JSNum)) : List (ℕ × ℚ) :=
  l.filterMap (fun p =>
    match p.2 with
    | some q => if 0 < q then some (p.1, q) else none
    | none => none)

/-- Stable insertion into a descending list: a new element goes after the
elements with a score at least as large, which is exactly where the stable
JS sort with comparator `(a, b) => b.score - a.score` puts it. -/
def insertDesc (x : ℕ × ℚ) : List (ℕ × ℚ) → List (ℕ × ℚ)
  | [] => [x]
  | y :: ys => if y.2 < x.2 then x :: y :: ys else y :: insertDesc x ys

/-- Stable descending sort by score (JS `sort((a,b) => b.score - a.score)`). -/
def sortDesc (l : List (ℕ × ℚ)) : List (ℕ × ℚ) :=
  l.foldl (fun acc x => insertDesc x acc) []

/-- `BM25.search` (index.ts lines 234-266): tokenize the query (throwing on
empty input), accumulate BM25 contributions, filter to strictly positive
scores, sort descending, and truncate to `topK`. -/
def search (cfg : BM25Config) (log : ℚ → ℚ) (st : BM25State) (query : String)
    (topK : ℕ) : Except String (List (ℕ × ℚ)) :=
  match tokenizeE cfg.tok query with
  | .error e => .error e
  | .ok qtokens =>
    let scores := qtokens.foldl (scoreStep cfg log st)
      (List.replicate st.documentLengths.length (some (0 : ℚ)))
    .ok ((sortDesc (filterPos (withIdx scores))).take topK)

/-- `BM25.getDocument` (index.ts lines 405-410). -/
def getDocument (st : BM25State) (i : ℕ) : Except String Doc :=
  match st.documents.get? i with
  | some d => .ok d
  | none => .error errOOB

/-- Candidate-set computation of `BM25.searchPhrase` (index.ts lines
272-289), including the quirk that an empty running set is re-seeded by the
next known term. -/
def candidateFold (st : BM25State) (tokens : List String) : List ℕ :=
  tokens.foldl (fun cand term =>
    match alookup st.termToIndex term with
    | none => cand
    | some ti =>
      let m := (alookup st.termFrequencies ti).getD []
      if cand.isEmpty then m.map (fun p => p.1)
      else cand.filter (fun d => (alookup m d).isSome)) []

/-- `BM25.calculatePhraseScore` (index.ts lines 320-341). -/
def calculatePhraseScore (cfg : BM25Config) (log : ℚ → ℚ) (st : BM25State)
    (phraseTokens : List String) (docIndex : ℕ) : JSNum :=
  phraseTokens.foldl (fun score term =>
    match alookup st.termToIndex term with
    | none => score
    | some ti =>
      let idf := calculateIDF log st ti
      let tf : ℚ := (alookup ((alookup st.termFrequencies ti).getD []) docIndex).getD 0
      let dl : JSNum := (st.documentLengths.get? docIndex).map (fun n => (n : ℚ))
      jadd score (jmul idf (normTF cfg.k1 cfg.b tf dl st.averageDocLength)))
    (some 0)

/-- The contiguous-subsequence scan of `searchPhrase`
(`for i = 0; i <= docTokens.length - phraseTokens.length; ...`); the JS
loop bound is a (possibly negative) number, so with a longer phrase the loop
body never runs. -/
def phraseMatches (phraseTokens docTokens : List String) : Bool :=
  (List.range (docTokens.length + 1 - phraseTokens.length)).any
    (fun i => decide ((docTokens.drop i).take phraseTokens.length = phraseTokens))

/-- `(scores.get(docIndex) || 0)`: an absent entry, a zero or a NaN (both
falsy) all read as 0. -/
def jsFalsyZero : Option JSNum → JSNum
  | none => some 0
  | some none => some 0
  | some (some q) => if q = 0 then some 0 else some q

/-- Comparator-induced strict order for the phrase-result sort; a NaN
comparator value is treated as equal by the JS sort. -/
def jLt (a b : JSNum) : Bool :=
  match a, b with
  | some x, some y => decide (x < y)
  | _, _ => false

/-- Stable insertion for the phrase-result sort. -/
def insertDescJ (x : ℕ × JSNum) : List (ℕ × JSNum) → List (ℕ × JSNum)
  | [] => [x]
  | y :: ys => if jLt y.2 x.2 then x :: y :: ys else y :: insertDescJ x ys

/-- Stable descending sort of the phrase results. -/
def sortDescJ (l : List (ℕ × JSNum)) : List (ℕ × JSNum) :=
  l.foldl (fun acc x => insertDescJ x acc) []

/-- The per-field scan of one candidate document in `searchPhrase`. -/
def phraseFieldFold (cfg : BM25Config) (log : ℚ → ℚ) (st : BM25State)
    (phraseTokens : List String) (docIndex : ℕ) :
    List (String × String) → List (ℕ × JSNum) →
    Except String (List (ℕ × JSNum))
  | [], scores => .ok scores
  | fc :: rest, scores =>
    match tokenizeE cfg.tok fc.2 with
    | .error e => .error e
    | .ok docTokens =>
      if phraseMatches phraseTokens docTokens then
        let contrib := jmul
          (calculatePhraseScore cfg log st phraseTokens docIndex)
          (some (boostOf cfg.fieldBoosts fc.1))
        phraseFieldFold cfg log st phraseTokens docIndex rest
          (aset scores docIndex
            (jadd (jsFalsyZero (alookup scores docIndex)) contrib))
      else phraseFieldFold cfg log st phraseTokens docIndex rest scores

/-- The candidate loop of `searchPhrase`. -/
def phraseCandFold (cfg : BM25Config) (log : ℚ → ℚ) (st : BM25State)
    (phraseTokens : List String) :
    List ℕ → List (ℕ × JSNum) → Except String (List (ℕ × JSNum))
  | [], scores => .ok scores
  | docIndex :: rest, scores =>
    match getDocument st docIndex with
    | .error e => .error e
    | .ok doc =>
      match phraseFieldFold cfg log st phraseTokens docIndex doc scores with
      | .error e => .error e
      | .ok scores => phraseCandFold cfg log st phraseTokens rest scores

/-- `BM25.searchPhrase` (index.ts lines 268-318): tokenize the phrase
(throwing on empty input), intersect candidate documents, re-tokenize each
candidate's fields looking for a contiguous match, accumulate the boosted
phrase score per matching field, sort descending and truncate. -/
def searchPhrase (cfg : BM25Config) (log : ℚ → ℚ) (st : BM25State)
    (phrase : String) (topK : ℕ) : Except String (List (ℕ × JSNum)) :=
  match tokenizeE cfg.tok phrase with
  | .error e => .error e
  | .ok phraseTokens =>
    let cands := candidateFold st phraseTokens
    match phraseCandFold cfg log st phraseTokens cands [] with
    | .error e => .error e
    | .ok scores => .ok ((sortDescJ scores).take topK)

/-! ### Stemmer (tokenizer.ts lines 156-263)

Words are lists of characters.  The fixed regular expressions of the default
algorithm are unfolded into the suffix tests they perform; a caller-supplied
custom rule is external data `(pattern, replacement, minMeasure)` and is
modelled by its match test and its substitution function. -/

/-- A word, as a list of characters. -/
abbrev Word := List Char

/-- The vowel character class `[aeiou]` used literally by the default rules. -/
def vowels : Word := ['a', 'e', 'i', 'o', 'u']

/-- `Tokenizer.isConsonant` (tokenizer.ts lines 243-247): `y` is a consonant
exactly when the previous character is not a consonant, and position 0 always
counts as not preceded by a consonant. -/
def isConsonant (w : Word) : ℕ → Bool
  | 0 =>
    let c := w.getD 0 ' '
    if vowels.contains c then false else true
  | i + 1 =>
    let c := w.getD (i + 1) ' '
    if vowels.contains c then false
    else if c ≠ 'y' then true
    else !isConsonant w i

/-- `Tokenizer.measure` (tokenizer.ts lines 249-263): the number of
vowel-sequence to consonant-sequence transitions. -/
def measure (w : Word) : ℕ :=
  ((List.range w.length).foldl
    (fun p i =>
      if isConsonant w i then (if p.1 then (false, p.2 + 1) else p)
      else (true, p.2))
    (false, 0)).2

/-- Does `w` end with `suf`? -/
def hasSuffix (w suf : Word) : Bool :=
  decide (suf.length ≤ w.length) && decide (w.drop (w.length - suf.length) = suf)

/-- Drop the last `n` characters. -/
def dropLastN (w : Word) (n : ℕ) : Word := w.take (w.length - n)

/-- `word.replace(/^(.+?)(ss|i)es$/, '$1$2')` followed by
`word.replace(/(.+?)([^s])s$/, '$1$2')` (step 1a).  The first regex drops a
final `es` after `ss` or `i` (needing a non-empty stem), the second drops a
final `s` preceded by a non-`s` (needing at least one more character). -/
def step1a (w : Word) : Word :=
  let w1 :=
    if 5 ≤ w.length && hasSuffix w ['s', 's', 'e', 's'] then dropLastN w 2
    else if 4 ≤ w.length && hasSuffix w ['i', 'e', 's'] then dropLastN w 2
    else w
  if 3 ≤ w1.length &&
      decide (w1.getLast? = some 's') &&
      !(decide ((w1.drop (w1.length - 2)).head? = some 's')) then
    dropLastN w1 1
  else w1

/-- The `/([^aeiou])\1$/` test: a doubled final character outside `aeiou`. -/
def doubledFinalConsonant (w : Word) : Bool :=
  match w.drop (w.length - 2) with
  | [c1, c2] => decide (c1 = c2) && !(vowels.contains c1)
  | _ => false

/-- The `/[^aeiou][aeiou][^aeiouwxy]$/` test. -/
def cvcEnd (w : Word) : Bool :=
  match w.drop (w.length - 3) with
  | [c1, c2, c3] =>
    !(vowels.contains c1) && vowels.contains c2 && !(vowels.contains c3) &&
      !(['w', 'x', 'y'].contains c3)
  | _ => false

/-- The cleanup applied to the residual stem after dropping `ed`/`ing`
(tokenizer.ts lines 207-214). -/
def step1bCleanup (w : Word) : Word :=
  if hasSuffix w ['a', 't'] || hasSuffix w ['b', 'l'] || hasSuffix w ['i', 'z'] then
    w ++ ['e']
  else if doubledFinalConsonant w then dropLastN w 1
  else if decide (measure w = 1) && cvcEnd w then w ++ ['e']
  else w

/-- Step 1b (tokenizer.ts lines 199-217): handle `eed`, `ed`, `ing`. -/
def step1b (w : Word) : Word :=
  if 4 ≤ w.length && hasSuffix w ['e', 'e', 'd'] then
    (if 0 < measure (dropLastN w 3) then dropLastN w 1 else w)
  else if 3 ≤ w.length && hasSuffix w ['e', 'd'] then
    (let stem := dropLastN w 2
     if stem.any (fun c => vowels.contains c) then step1bCleanup stem else w)
  else if 4 ≤ w.length && hasSuffix w ['i', 'n', 'g'] then
    (let stem := dropLastN w 3
     if stem.any (fun c => vowels.contains c) then step1bCleanup stem else w)
  else w

/-- The derivational suffix alternation of step 2, as listed in the source
regex (tokenizer.ts lines 220-225). -/
def step2List : List Word :=
  [['a','t','i','o','n','a','l'], ['t','i','o','n','a','l'],
   ['e','n','c','i'], ['a','n','c','i'], ['i','z','e','r'],
   ['a','b','l','i'], ['a','l','l','i'], ['e','n','t','l','i'],
   ['e','l','i'], ['o','u','s','l','i'],
   ['i','z','a','t','i','o','n'], ['a','t','i','o','n'],
   ['a','t','o','r'], ['a','l','i','s','m'],
   ['i','v','e','n','e','s','s'], ['f','u','l','n','e','s','s'],
   ['o','u','s','n','e','s','s'], ['a','l','i','t','i'],
   ['i','v','i','t','i'], ['b','i','l','i','t','i']]

/-- The longest listed suffix of `w` with a non-empty stem: the lazy group
`(.+?)` makes the regex engine pick the split with the shortest stem. -/
def step2Pick (w : Word) : Option Word :=
  (step2List.filter (fun s => decide (s.length < w.length) && hasSuffix w s)).foldl
    (fun acc s =>
      match acc with
      | none => some s
      | some t => if t.length < s.length then some s else acc)
    none

/-- Step 2: map a matched derivational suffix to `ate` when the stem measure
is positive, else leave the word unchanged. -/
def step2 (w : Word) : Word :=
  match step2Pick w with
  | none => w
  | some s =>
    let stem := dropLastN w s.length
    if 0 < measure stem then stem ++ ['a', 't', 'e'] else w

/-- `Tokenizer.applyDefaultStemmingRules` (tokenizer.ts lines 192-228). -/
def applyDefaultStemmingRules (w : Word) : Word := step2 (step1b (step1a w))

/-- A caller-supplied custom stemming rule: the match test of its pattern,
the substitution `stemmed.replace(pattern, replacement)` performs, and the
optional minimum measure. -/
structure StemRule where
  patMatch : Word → Bool
  subst : Word → Word
  minMeasure : Option ℕ

/-- `!rule.minMeasure || this.measure(stemmed) >= rule.minMeasure` (a zero or
absent minimum is falsy and always passes). -/
def ruleMeasureOK (r : StemRule) (w : Word) : Bool :=
  match r.minMeasure with
  | none => true
  | some m => decide (m ≤ measure w)

/-- One iteration of the custom-rule loop of `Tokenizer.stemWord`
(tokenizer.ts lines 163-177): the flag is set as soon as a pattern matches
the evolving word, whether or not the measure condition lets the
substitution happen. -/
def stemStep (p : Word × Bool) (r : StemRule) : Word × Bool :=
  if r.patMatch p.1 then
    ((if ruleMeasureOK r p.1 then r.subst p.1 else p.1), true)
  else p

/-- The custom-rule loop of `Tokenizer.stemWord`. -/
def stemWordCore (rules : List StemRule) (w : Word) : Word × Bool :=
  rules.foldl stemStep (w, false)

/-- `Tokenizer.stemWord` (tokenizer.ts lines 156-185): words shorter than 3
characters are returned unchanged; if any custom pattern matched, the default
algorithm is skipped. -/
def stemWord (rules : List StemRule) (w : Word) : Word :=
  if w.length < 3 then w
  else
    let p := stemWordCore rules w
    if p.2 then p.1 else applyDefaultStemmingRules p.1

/-! ### Tokenizer pipeline (tokenizer.ts lines 58-92, 143-149)

`cleanText` depends on the platform's Unicode tables (case mapping, NFKD and
character property classes), so the pipeline is parameterized by the cleaned
text; the filter and the stemming stage are concrete. -/

/-- Tokenizer configuration (stop words, minimum length, stemming and the
compiled custom rules). -/
structure TokCfg where
  minLength : ℕ
  stopWords : List String
  stemming : Bool
  rules : List StemRule

/-- Character-level split on the space character, accumulating the current
fragment in reverse. -/
def splitSpAux : List Char → List Char → List (List Char)
  | [], acc => [acc.reverse]
  | c :: cs, acc =>
    if c = ' ' then acc.reverse :: splitSpAux cs []
    else splitSpAux cs (c :: acc)

/-- JS `string.split(' ')`: split on every single space, keeping empty
fragments; the empty string yields `[""]`. -/
def jsSplitSpace (s : String) : List String :=
  (splitSpAux s.data []).map String.mk

/-- `/^\d+$/`: one or more ASCII digits. -/
def isNumericTok (t : String) : Bool :=
  decide (0 < t.length) && t.data.all (fun c => c.isDigit)

/-- `Tokenizer.isValidToken` (tokenizer.ts lines 143-149). -/
def isValidToken (cfg : TokCfg) (t : String) : Bool :=
  (decide (cfg.minLength ≤ t.length) || isNumericTok t) &&
    !(cfg.stopWords.contains t)

/-- The stemming stage applied to one surviving token. -/
def stemTok (cfg : TokCfg) (t : String) : String :=
  if cfg.stemming then String.mk (stemWord cfg.rules t.data) else t

/-- `Tokenizer.tokenize` (tokenizer.ts lines 58-92) with the cleaned text
supplied by `clean` (the Unicode-dependent `cleanText`): split on single
spaces, filter with `isValidToken`, then stem the survivors.  Throws exactly
on empty input. -/
def tokenizePipeline (clean : String → String) (cfg : TokCfg)
    (text : String) : Except String (List String) :=
  if text = "" then .error errEmptyText
  else
    .ok (((jsSplitSpace (clean text)).filter (fun t => isValidToken cfg t)).map
      (fun t => stemTok cfg t))

/-! ### `Tokenizer.cleanText` (tokenizer.ts lines 108-136)

The pipeline's stage structure is concrete; the per-character Unicode data
it consults (`toLowerCase`, `normalize('NFKD')` and the property classes of
the regexes) is a parameter `CharSem`, constrained by hypotheses that hold
of the Unicode character database. -/

/-- The character-level Unicode data `cleanText` consults, over an abstract
character type: the case mapping, the NFKD decomposition, the character
classes of the six replace stages (control/zero-width, combining diacritics
U+0300-036F, emoji/symbol, trademark-like symbols, punctuation `\p{P}`, the
kept set `[a-z0-9 CJK Kana Hangul \s]`), the whitespace class `\s` and the
space character. -/
structure CharSem (α : Type) where
  lower : α → List α
  nfkd : α → List α
  isCtl : α → Bool
  isComb : α → Bool
  isEmoji : α → Bool
  isTm : α → Bool
  isPunct : α → Bool
  isKept : α → Bool
  isWs : α → Bool
  sp : α

/-- `.replace(/\s+/g, ' ')`: each maximal run of whitespace becomes one
space.  The flag records whether the previous character was whitespace. -/
def collapseWs {α : Type} (S : CharSem α) : Bool → List α → List α
  | _, [] => []
  | prev, c :: cs =>
    if S.isWs c then
      (if prev then collapseWs S true cs else S.sp :: collapseWs S true cs)
    else c :: collapseWs S false cs

/-- Remove trailing whitespace (the right half of `.trim()`). -/
def dropTrailingWs {α : Type} (S : CharSem α) : List α → List α
  | [] => []
  | c :: cs =>
    if (dropTrailingWs S cs).isEmpty then (if S.isWs c then [] else [c])
    else c :: dropTrailingWs S cs

/-- `.trim()`. -/
def trimWs {α : Type} (S : CharSem α) (l : List α) : List α :=
  dropTrailingWs S (l.dropWhile (fun c => S.isWs c))

/-- `Tokenizer.cleanText`: lowercase, NFKD, remove control/zero-width
characters, remove combining diacritics, remove emoji/symbols, remove
trademark-like symbols, replace punctuation by a space, replace characters
outside the kept set by a space, collapse whitespace and trim. -/
def cleanText {α : Type} (S : CharSem α) (xs : List α) : List α :=
  let l := (xs.flatMap S.lower).flatMap S.nfkd
  let l := l.filter (fun c => !S.isCtl c)
  let l := l.filter (fun c => !S.isComb c)
  let l := l.filter (fun c => !S.isEmoji c)
  let l := l.filter (fun c => !S.isTm c)
  let l := l.map (fun c => if S.isPunct c then S.sp else c)
  let l := l.map (fun c => if S.isKept c then c else S.sp)
  trimWs S (collapseWs S false l)

/-- A character that passes every removal stage of `cleanText` unchanged:
kept, and in none of the removed or replaced classes. -/
def Survivor {α : Type} (S : CharSem α) (c : α) : Prop :=
  S.isKept c = true ∧ S.isCtl c = false ∧ S.isComb c = false ∧
    S.isEmoji c = false ∧ S.isTm c = false ∧ S.isPunct c = false ∧
    S.isWs c = false

/-- The facts about the Unicode tables that `cleanText`'s idempotence rests
on: the space is whitespace and passes every stage as itself, and any
character produced by the NFKD stage that survives all later stages is fixed
by both the case mapping and NFKD (NFKD output is normalized, and the kept
non-whitespace classes contain no upper-case characters). -/
structure CharSemOK {α : Type} (S : CharSem α) : Prop where
  ws_sp : S.isWs S.sp = true
  lower_sp : S.lower S.sp = [S.sp]
  nfkd_sp : S.nfkd S.sp = [S.sp]
  ctl_sp : S.isCtl S.sp = false
  comb_sp : S.isComb S.sp = false
  emoji_sp : S.isEmoji S.sp = false
  tm_sp : S.isTm S.sp = false
  punct_sp : S.isPunct S.sp = false
  kept_sp : S.isKept S.sp = true
  stable : ∀ c d, d ∈ S.nfkd c → Survivor S d →
    S.lower d = [d] ∧ S.nfkd d = [d]

/-! ### Concrete instances used by the claim theorems -/

deriving instance DecidableEq for Except

/-- Behaviour of a default-configured tokenizer on simple lowercase ASCII,
space-separated text (minimum length 2, no stop words, no stemming): split
on spaces and keep tokens of length at least 2. -/
def tokDefault : String → List String :=
  fun s => (jsSplitSpace s).filter (fun t => 2 ≤ t.length)

/-- A `BM25` instance with default options (`k1 = 1.5`, `b = 0.75`, no
field boosts). -/
def cfgDefault : BM25Config :=
  { k1 := 3 / 2, b := 3 / 4, fieldBoosts := [], tok := tokDefault }

/-- Sample text. -/
def txtHW : String := "hello world"

/-- Sample term. -/
def txtHello : String := "hello"

/-- Sample term. -/
def txtWorld : String := "world"

/-- Sample token. -/
def runStr : String := "run"

/-- Sample input word. -/
def runningStr : String := "running"

/-- The empty query string. -/
def emptyQuery : String := ""

/-- A one-field sample document. -/
def docHW : Doc := [("content", txtHW)]

/-- A one-field sample document. -/
def docHello : Doc := [("content", txtHello)]

/-- The state after `addDocuments([docHW])` from empty. -/
def seqStateC1 : BM25State := addDocuments cfgDefault emptyState [docHW]

/-- The state after `addDocumentsParallel([docHW])` (one slice) from empty. -/
def parStateC1 : BM25State :=
  match addDocumentsParallel cfgDefault tokDefault emptyState [[docHW]] with
  | .ok s => s
  | .error _ => emptyState

/-- A `BM25` instance boosting the `title` field by 2. -/
def cfgBoosted : BM25Config :=
  { k1 := 3 / 2, b := 3 / 4, fieldBoosts := [("title", 2)], tok := tokDefault }

/-- A document whose two fields both contain the term `hello`. -/
def docTwoFields : Doc := [("title", txtHello), ("content", txtHello)]

/-- The (term 0, document 0) frequency the bulk constructor path records for
`docTwoFields`. -/
def bulkTF : Option ℚ :=
  match processDocuments cfgBoosted [docTwoFields] with
  | .ok r => alookup ((alookup r.termFrequencies 0).getD []) 0
  | .error _ => none

/-- The (term 0, document 0) frequency `addDocument` records for
`docTwoFields` from the empty state. -/
def incrTF : Option ℚ :=
  alookup
    ((alookup ((addDocument cfgBoosted emptyState (some docTwoFields)).1).termFrequencies 0).getD [])
    0

/-- State after one successful `addDocument docHello` from empty. -/
def stAfterAddHello : BM25State :=
  (addDocument cfgDefault emptyState (some docHello)).1

/-- A document whose second field has empty text, making tokenize throw. -/
def emptyFieldDoc : Doc := [("a", txtHello), ("b", "")]

/-- A custom stemming rule like `{pattern: /^(.*?)s$/, replacement: '$1',
minMeasure: 2}`: the pattern matches any word ending in `s`, the
substitution drops that `s`. -/
def ruleMinMeasure2 : StemRule :=
  { patMatch := fun w => decide (w.getLast? = some 's')
    subst := fun w => dropLastN w 1
    minMeasure := some 2 }

/-- The word `cats`. -/
def catsW : Word := ['c', 'a', 't', 's']

/-- The custom-rule pass as the claim describes it: each rule in order
substitutes exactly when its pattern matches the evolving word and its
measure condition is met. -/
def customPass (rules : List StemRule) (w : Word) : Word :=
  rules.foldl
    (fun v r => if r.patMatch v && ruleMeasureOK r v then r.subst v else v) w

/-- Tokenizer configuration: stop word `run`, stemming enabled. -/
def stopRunCfg : TokCfg :=
  { minLength := 2, stopWords := [runStr], stemming := true, rules := [] }

/-- Tokenizer configuration with stemming disabled and no stop words. -/
def noStemCfg : TokCfg :=
  { minLength := 2, stopWords := [], stemming := false, rules := [] }

/-- The tokens of `txtHW` under `noStemCfg`. -/
def tokHW : List String := [txtHello, txtWorld]

/-- A small populated index state used to exercise `search`. -/
def stSearchW : BM25State :=
  { documents := [docHW]
    documentLengths := [2]
    termToIndex := [(txtHello, 0)]
    documentFrequency := [1]
    averageDocLength := 2
    termFrequencies := [(0, [(0, 1)])] }

/-- A concrete stand-in for `Math.log` (the claims hold for every log). -/
def logOne : ℚ → ℚ := fun _ => 1

/-- A concrete stand-in for `Math.log`. -/
def logZero : ℚ → ℚ := fun _ => 0

/-! ### Helper lemmas -/

/-- A property preserved by each step is preserved by `foldl`. -/
theorem foldl_preserve {σ γ : Type} (P : σ → Prop) (f : σ → γ → σ)
    (hf : ∀ s c, P s → P (f s c)) :
    ∀ (l : List γ) (s : σ), P s → P (l.foldl f s) := by
  intro l
  induction l with
  | nil => intro s h; exact h
  | cons c cs ih => intro s h; exact ih _ (hf s c h)

/-- The custom-rule loop keeps its flag once set. -/
theorem stemStep_foldl_flag_true (rules : List StemRule) :
    ∀ (p : Word × Bool), p.2 = true → (rules.foldl stemStep p).2 = true := by
  induction rules with
  | nil => intro p h; exact h
  | cons r rs ih =>
    intro p h
    simp only [List.foldl_cons]
    apply ih
    unfold stemStep
    split
    · rfl
    · exact h

/-- The word computed by the custom-rule loop is the gated-substitution
pass, independently of the flag. -/
theorem stemStep_foldl_fst (rules : List StemRule) :
    ∀ (w : Word) (fl : Bool),
      (rules.foldl stemStep (w, fl)).1 = customPass rules w := by
  induction rules with
  | nil => intro w fl; rfl
  | cons r rs ih =>
    intro w fl
    simp only [List.foldl_cons, customPass, stemStep]
    by_cases hm : r.patMatch w = true
    · by_cases hok : ruleMeasureOK r w = true
      · simp only [hm, hok, if_true, Bool.and_self]
        exact ih (r.subst w) true
      · simp only [hm, if_true]
        rw [if_neg (by simp [hok]), if_neg (by simp [hm, hok])]
        exact ih w true
    · rw [if_neg (by simp [hm]), if_neg (by simp [hm])]
      exact ih w fl

/-- The flag of the custom-rule loop is set exactly when some rule's
pattern matches the initial word (until a first match the word does not
change). -/
theorem stemStep_foldl_snd (rules : List StemRule) :
    ∀ (w : Word) (fl : Bool),
      (rules.foldl stemStep (w, fl)).2 =
        (fl || rules.any (fun r => r.patMatch w)) := by
  induction rules with
  | nil => intro w fl; simp
  | cons r rs ih =>
    intro w fl
    simp only [List.foldl_cons, List.any_cons]
    by_cases hm : r.patMatch w = true
    · have : stemStep (w, fl) r =
          ((if ruleMeasureOK r w then r.subst w else w), true) := by
        unfold stemStep; rw [if_pos hm]
      rw [this, stemStep_foldl_flag_true rs _ rfl, hm]
      simp
    · have : stemStep (w, fl) r = (w, fl) := by
        unfold stemStep; rw [if_neg (by simp [hm])]
      rw [this, ih w fl]
      simp [hm]

/-- Without a matching pattern the gated pass leaves the word unchanged. -/
theorem customPass_id (rules : List StemRule) :
    ∀ (w : Word), (∀ r ∈ rules, r.patMatch w = false) →
      customPass rules w = w := by
  induction rules with
  | nil => intro w _; rfl
  | cons r rs ih =>
    intro w h
    simp only [customPass, List.foldl_cons]
    rw [if_neg (by simp [h r (by simp)])]
    exact ih w (fun s hs => h s (by simp [hs]))

/-! ### Claim theorems -/

/-- C1: the claimed equivalence between `addDocumentsParallel` and
sequential `addDocuments` fails on the code.  On the single-document batch
`[docHW]` from the empty state (one slice, identical tokenizers), sequential
`addDocuments` leaves the document-frequency array empty — the doubling of a
zero-length `Uint32Array` in `addDocument` keeps length 0, so every DF
increment is dropped — while `addDocumentsParallel` recomputes DF from the
merged term frequencies, giving `[1, 1]`; the final states differ. -/
theorem bm25_parallel_merge_differs_from_sequential_add :
    addDocumentsParallel cfgDefault tokDefault emptyState [[docHW]] =
      .ok parStateC1 ∧
    seqStateC1.documentFrequency = [] ∧
    parStateC1.documentFrequency = [1, 1] ∧
    seqStateC1 ≠ parStateC1 := by
  refine ⟨rfl, by decide, by decide, by decide⟩

/-- C2: `addDocument` does not record the boosted, field-accumulated term
frequency the bulk construction records.  For `docTwoFields` (term `hello`
in both a title field boosted by 2 and an unboosted content field) the bulk
path stores 1·2 + 1·1 = 3, while `addDocument` stores the raw count of the
last processed field, 1. -/
theorem bm25_addDocument_drops_boost_and_accumulation :
    bulkTF = some 3 ∧ incrTF = some 1 := by
  exact ⟨by decide, by decide⟩

/-- C3: the invariant `DF[t] = |{d : TF[t][d] > 0}|` is broken after a
completed `addDocument` on an empty index: term 0 occurs with positive
stored frequency in exactly one document, but the document-frequency array
is still empty, so `DF[0]` is not stored at all (an out-of-bounds read). -/
theorem bm25_df_invariant_broken_after_addDocument :
    ((alookup stAfterAddHello.termFrequencies 0).getD []).countP
      (fun p => decide (0 < p.2)) = 1 ∧
    stAfterAddHello.documentFrequency.get? 0 = none := by
  exact ⟨by decide, by decide⟩

/-- C10: `search` and `searchPhrase` called with the empty query string
raise the tokenizer's invalid-input error synchronously instead of
returning an empty result list. -/
theorem bm25_empty_query_throws_tokenizer_error :
    ∀ (cfg : BM25Config) (log : ℚ → ℚ) (st : BM25State) (topK : ℕ),
      search cfg log st emptyQuery topK = .error errEmptyText ∧
      searchPhrase cfg log st emptyQuery topK = .error errEmptyText := by
  intro cfg log st topK
  exact ⟨rfl, rfl⟩

/-- C5 counterexample: with the rule `{pattern: /^(.*?)s$/, replacement:
'$1', minMeasure: 2}` and the word `cats` (measure 1), the pattern matches
but the measure condition fails, so by the claim no rule fires and the
default algorithm should apply (giving `cat`); the code instead skips the
default rules and returns `cats` unchanged. -/
theorem stemmer_measure_failed_match_still_skips_default :
    ruleMinMeasure2.patMatch catsW = true ∧
    ruleMeasureOK ruleMinMeasure2 catsW = false ∧
    stemWord [ruleMinMeasure2] catsW = catsW ∧
    applyDefaultStemmingRules catsW = ['c', 'a', 't'] := by
  exact ⟨by decide, by decide, by decide, by decide⟩

/-- C5 (amended): a custom rule substitutes only when its pattern matches
the evolving word and its minimum-measure condition is met, but the default
algorithm is skipped exactly when some custom rule's pattern merely matches
the word (whether or not its measure condition is met); when no pattern
matches, the default rules are applied. -/
theorem stemmer_custom_override_characterization :
    ∀ (rules : List StemRule) (w : Word),
      stemWord rules w =
        if w.length < 3 then w
        else if rules.any (fun r => r.patMatch w) then customPass rules w
        else applyDefaultStemmingRules w := by
  intro rules w
  unfold stemWord stemWordCore
  by_cases h3 : w.length < 3
  · simp [h3]
  · simp only [h3, if_false]
    rw [stemStep_foldl_snd rules w false, stemStep_foldl_fst rules w false]
    by_cases hm : rules.any (fun r => r.patMatch w) = true
    · simp [hm]
    · have hmf : rules.any (fun r => r.patMatch w) = false :=
        Bool.eq_false_iff.mpr hm
      have hall : ∀ r ∈ rules, r.patMatch w = false := by
        intro r hr
        simpa using List.any_eq_false.mp hmf r hr
      rw [if_neg (by simp [hmf]), if_neg (by simp [hmf]),
        customPass_id rules w hall]

/-- C6 counterexample: with stop word `run`, minimum length 2 and stemming
enabled, the input `running` passes the validity filter and is then stemmed
to `run`, so the returned token sequence contains a configured stop word,
contradicting the claimed filtering law. -/
theorem tokenizer_stemmed_output_is_stopword :
    tokenizePipeline id stopRunCfg runningStr = .ok [runStr] ∧
    stopRunCfg.stopWords.contains runStr = true := by
  exact ⟨by decide, by decide⟩

/-- C6 (amended): every returned token is the (optional) stem of a token
that passed the validity filter — at least `minLength` long or purely
numeric, and not a stop word; when stemming is disabled both filtering laws
hold verbatim for the returned sequence. -/
theorem tokenizer_filter_laws_pre_stemming :
    ∀ (clean : String → String) (cfg : TokCfg) (text : String)
      (ts : List String),
      tokenizePipeline clean cfg text = .ok ts →
      ((∀ t ∈ ts, ∃ p, isValidToken cfg p = true ∧ t = stemTok cfg p) ∧
       (cfg.stemming = false → ∀ t ∈ ts,
          (cfg.minLength ≤ t.length ∨ isNumericTok t = true) ∧
          cfg.stopWords.contains t = false)) := by
  intro clean cfg text ts h
  unfold tokenizePipeline at h
  split at h
  · exact absurd h (by simp)
  · have hts : ts = ((jsSplitSpace (clean text)).filter
        (fun t => isValidToken cfg t)).map (fun t => stemTok cfg t) := by
      injection h with h2
      exact h2.symm
    subst hts
    constructor
    · intro t ht
      obtain ⟨p, hp, hpt⟩ := List.mem_map.mp ht
      exact ⟨p, (List.mem_filter.mp hp).2, hpt.symm⟩
    · intro hstem t ht
      obtain ⟨p, hp, hpt⟩ := List.mem_map.mp ht
      have hv := (List.mem_filter.mp hp).2
      have hid : stemTok cfg p = p := by
        unfold stemTok
        rw [hstem]
        simp
      rw [← hpt, hid]
      have := hv
      unfold isValidToken at this
      simp only [Bool.and_eq_true, Bool.or_eq_true, decide_eq_true_eq,
        Bool.not_eq_true'] at this
      exact ⟨this.1, this.2⟩

/-- C6 witness: the amended theorem applied to a concrete run with stemming
disabled. -/
theorem tokenizer_filter_laws_pre_stemming_witness :
    (∀ t ∈ tokHW, ∃ p, isValidToken noStemCfg p = true ∧ t = stemTok noStemCfg p) ∧
    (noStemCfg.stemming = false → ∀ t ∈ tokHW,
        (noStemCfg.minLength ≤ t.length ∨ isNumericTok t = true) ∧
        noStemCfg.stopWords.contains t = false) :=
  tokenizer_filter_laws_pre_stemming id noStemCfg txtHW tokHW (by decide)

/-- `addTermToDoc` never touches the stored documents, the length array or
the average length. -/
theorem addTermToDoc_untouched (st : BM25State) (dI : ℕ)
    (tokens : List String) (term : String) :
    (addTermToDoc st dI tokens term).documents = st.documents ∧
    (addTermToDoc st dI tokens term).documentLengths = st.documentLengths ∧
    (addTermToDoc st dI tokens term).averageDocLength = st.averageDocLength := by
  simp only [addTermToDoc]
  repeat' split
  all_goals simp

/-- The term loop of `addDocument` never touches the stored documents, the
length array or the average length. -/
theorem foldAddTerm_untouched (dI : ℕ) (tokens : List String) :
    ∀ (terms : List String) (st : BM25State),
      ((terms.foldl (fun s term => addTermToDoc s dI tokens term) st).documents
          = st.documents ∧
       (terms.foldl (fun s term => addTermToDoc s dI tokens term) st).documentLengths
          = st.documentLengths ∧
       (terms.foldl (fun s term => addTermToDoc s dI tokens term) st).averageDocLength
          = st.averageDocLength) := by
  intro terms
  induction terms with
  | nil => intro st; exact ⟨rfl, rfl, rfl⟩
  | cons t ts ih =>
    intro st
    have h1 := addTermToDoc_untouched st dI tokens t
    have h2 := ih (addTermToDoc st dI tokens t)
    simp only [List.foldl_cons]
    exact ⟨h2.1.trans h1.1, h2.2.1.trans h1.2.1, h2.2.2.trans h1.2.2⟩

/-- Whatever state the field loop of `addDocument` stops in — error or
success — its stored documents, length array and average are those it
started from. -/
theorem addFields_untouched (cfg : BM25Config) (dI : ℕ) :
    ∀ (fields : List (String × String)) (acc : ℚ) (st st2 : BM25State),
      ((∀ e, addFields cfg dI fields acc st = .error (st2, e) →
          st2.documents = st.documents ∧
          st2.documentLengths = st.documentLengths ∧
          st2.averageDocLength = st.averageDocLength) ∧
       (∀ r, addFields cfg dI fields acc st = .ok (st2, r) →
          st2.documents = st.documents ∧
          st2.documentLengths = st.documentLengths ∧
          st2.averageDocLength = st.averageDocLength)) := by
  intro fields
  induction fields with
  | nil =>
    intro acc st st2
    constructor
    · intro e h
      exact absurd h (by simp [addFields])
    · intro r h
      simp only [addFields, Except.ok.injEq, Prod.mk.injEq] at h
      rw [← h.1]
      exact ⟨rfl, rfl, rfl⟩
  | cons fc rest ih =>
    intro acc st st2
    obtain ⟨fn, content⟩ := fc
    constructor
    · intro e h
      simp only [addFields] at h
      split at h
      · simp only [Except.error.injEq, Prod.mk.injEq] at h
        rw [← h.1]
        exact ⟨rfl, rfl, rfl⟩
      · rename_i tokens heq
        have hu := foldAddTerm_untouched dI tokens (firstDedup tokens) st
        have := (ih _ _ st2).1 e h
        exact ⟨this.1.trans hu.1, this.2.1.trans hu.2.1, this.2.2.trans hu.2.2⟩
    · intro r h
      simp only [addFields] at h
      split at h
      · exact absurd h (by simp)
      · rename_i tokens heq
        have hu := foldAddTerm_untouched dI tokens (firstDedup tokens) st
        have := (ih _ _ st2).2 r h
        exact ⟨this.1.trans hu.1, this.2.1.trans hu.2.1, this.2.2.trans hu.2.2⟩

/-- A document containing an empty-text field makes the field loop throw. -/
theorem addFields_error_of_empty (cfg : BM25Config) (dI : ℕ) :
    ∀ (fields : List (String × String)) (acc : ℚ) (st : BM25State),
      (∃ f ∈ fields, f.2 = "") →
      ∃ st2 e, addFields cfg dI fields acc st = .error (st2, e) := by
  intro fields
  induction fields with
  | nil =>
    intro acc st h
    obtain ⟨f, hf, _⟩ := h
    exact absurd hf (by simp)
  | cons fc rest ih =>
    intro acc st h
    obtain ⟨fn, content⟩ := fc
    by_cases hc : content = ""
    · refine ⟨st, errEmptyText, ?_⟩
      simp [addFields, tokenizeE, hc]
    · obtain ⟨f, hf, hfe⟩ := h
      rcases List.mem_cons.mp hf with h1 | h2
      · exact absurd (by rw [h1] at hfe; exact hfe) hc
      · simp only [addFields, tokenizeE, if_neg hc]
        exact ih _ _ ⟨f, h2, hfe⟩

/-- C4 counterexample: `addDocument` on a document whose second field has
empty text raises the tokenizer error, but the state is not the one from
before the call — the document was pushed and the first field's statistics
were applied. -/
theorem bm25_addDocument_error_mutates_state :
    (addDocument cfgDefault emptyState (some emptyFieldDoc)).2 =
      some errEmptyText ∧
    (addDocument cfgDefault emptyState (some emptyFieldDoc)).1 ≠ emptyState := by
  exact ⟨by decide, by decide⟩

/-- C4 (amended): both errors are raised synchronously; a null document
leaves the state fully unchanged, but a document with an empty-text field is
still appended to the stored documents and the statistics of the fields
before the failing one are retained — only the length array and the average
length are guaranteed unchanged. -/
theorem bm25_addDocument_error_sync_partial_mutation :
    ∀ (cfg : BM25Config) (st : BM25State),
      addDocument cfg st none = (st, some errNullDoc) ∧
      ∀ (doc : Doc), (∃ f ∈ doc, f.2 = "") →
        ((addDocument cfg st (some doc)).2.isSome = true ∧
         (addDocument cfg st (some doc)).1.documents = st.documents ++ [doc] ∧
         (addDocument cfg st (some doc)).1.documentLengths = st.documentLengths ∧
         (addDocument cfg st (some doc)).1.averageDocLength = st.averageDocLength) := by
  intro cfg st
  constructor
  · rfl
  · intro doc hdoc
    obtain ⟨st2, e, he⟩ := addFields_error_of_empty cfg st.documentLengths.length
      doc 0 { st with documents := st.documents ++ [doc] } hdoc
    have hu := (addFields_untouched cfg st.documentLengths.length doc 0
      { st with documents := st.documents ++ [doc] } st2).1 e he
    simp only [addDocument, he]
    exact ⟨rfl, hu.1, hu.2.1, hu.2.2⟩

/-- C4 witness: the amended theorem applied at the empty state and the
concrete document `emptyFieldDoc`. -/
theorem bm25_addDocument_error_sync_partial_mutation_witness :
    ((addDocument cfgDefault emptyState (some emptyFieldDoc)).2.isSome = true ∧
     (addDocument cfgDefault emptyState (some emptyFieldDoc)).1.documents =
       emptyState.documents ++ [emptyFieldDoc] ∧
     (addDocument cfgDefault emptyState (some emptyFieldDoc)).1.documentLengths =
       emptyState.documentLengths ∧
     (addDocument cfgDefault emptyState (some emptyFieldDoc)).1.averageDocLength =
       emptyState.averageDocLength) :=
  (bm25_addDocument_error_sync_partial_mutation cfgDefault emptyState).2
    emptyFieldDoc ⟨("b", ""), by decide, rfl⟩

/-- Membership in a stable descending insertion. -/
theorem mem_insertDesc (x : ℕ × ℚ) :
    ∀ (l : List (ℕ × ℚ)) (y : ℕ × ℚ), y ∈ insertDesc x l ↔ y = x ∨ y ∈ l := by
  intro l
  induction l with
  | nil => intro y; simp [insertDesc]
  | cons z zs ih =>
    intro y
    unfold insertDesc
    split
    · simp [List.mem_cons]
    · rw [List.mem_cons, ih y, List.mem_cons]
      tauto

/-- Stable descending insertion preserves descending order. -/
theorem pairwise_insertDesc (x : ℕ × ℚ) :
    ∀ (l : List (ℕ × ℚ)), l.Pairwise (fun a b => b.2 ≤ a.2) →
      (insertDesc x l).Pairwise (fun a b => b.2 ≤ a.2) := by
  intro l
  induction l with
  | nil => intro _; simp [insertDesc]
  | cons z zs ih =>
    intro hp
    unfold insertDesc
    split
    · rename_i hlt
      refine List.Pairwise.cons ?_ hp
      intro b hb
      rcases List.mem_cons.mp hb with h1 | h2
      · rw [h1]; exact le_of_lt hlt
      · exact le_trans ((List.pairwise_cons.mp hp).1 b h2) (le_of_lt hlt)
    · rename_i hge
      have hp2 := List.pairwise_cons.mp hp
      refine List.Pairwise.cons ?_ (ih hp2.2)
      intro b hb
      rcases (mem_insertDesc x zs b).mp hb with h1 | h2
      · rw [h1]; exact le_of_not_lt hge
      · exact hp2.1 b h2

/-- The search result sort produces a descending list. -/
theorem sortDesc_pairwise (l : List (ℕ × ℚ)) :
    (sortDesc l).Pairwise (fun a b => b.2 ≤ a.2) :=
  foldl_preserve (fun acc => acc.Pairwise (fun a b => b.2 ≤ a.2))
    (fun acc x => insertDesc x acc)
    (fun acc x h => pairwise_insertDesc x acc h) l [] (by simp)

/-- Elements of the fold underlying `sortDesc` come from the accumulator or
the input. -/
theorem mem_foldl_insertDesc :
    ∀ (l acc : List (ℕ × ℚ)) (y : ℕ × ℚ),
      y ∈ List.foldl (fun acc x => insertDesc x acc) acc l →
      y ∈ acc ∨ y ∈ l := by
  intro l
  induction l with
  | nil => intro acc y h; exact Or.inl h
  | cons x xs ih =>
    intro acc y h
    rcases ih _ y h with h1 | h2
    · rcases (mem_insertDesc x acc y).mp h1 with h3 | h4
      · right; simp [h3]
      · left; exact h4
    · right; simp [h2]

/-- Members of the sorted results are members of the unsorted results. -/
theorem mem_of_mem_sortDesc (l : List (ℕ × ℚ)) (y : ℕ × ℚ)
    (h : y ∈ sortDesc l) : y ∈ l :=
  (mem_foldl_insertDesc l [] y h).resolve_left (by simp)

/-- Everything the positive-score filter keeps has a strictly positive
score. -/
theorem filterPos_pos (l : List (ℕ × JSNum)) (y : ℕ × ℚ)
    (h : y ∈ filterPos l) : 0 < y.2 := by
  unfold filterPos at h
  obtain ⟨p, _, he⟩ := List.mem_filterMap.mp h
  rcases p with ⟨i, s⟩
  cases s with
  | none => simp at he
  | some q =>
    simp only at he
    split at he
    · rename_i hq
      injection he with he2
      rw [← he2]
      exact hq
    · exact absurd he (by simp)

/-- C7: every result list produced by `search` contains only strictly
positive scores, is sorted in descending score order, and has length at most
`topK`. -/
theorem bm25_search_results_positive_sorted_bounded :
    ∀ (cfg : BM25Config) (log : ℚ → ℚ) (st : BM25State) (q : String) (k : ℕ)
      (rs : List (ℕ × ℚ)),
      search cfg log st q k = .ok rs →
      ((∀ r ∈ rs, 0 < r.2) ∧
       rs.Pairwise (fun a b => b.2 ≤ a.2) ∧
       rs.length ≤ k) := by
  intro cfg log st q k rs h
  unfold search at h
  split at h
  · exact absurd h (by simp)
  · injection h with h2
    rw [← h2]
    refine ⟨?_, ?_, ?_⟩
    · intro r hr
      exact filterPos_pos _ r
        (mem_of_mem_sortDesc _ r (List.mem_of_mem_take hr))
    · exact (sortDesc_pairwise _).sublist (List.take_sublist _ _)
    · exact List.length_take_le _ _

/-- C7 witness: the theorem applied to a concrete populated index and the
query `hello` with `topK = 5`. -/
theorem bm25_search_results_positive_sorted_bounded_witness :
    ((∀ r ∈ [((0 : ℕ), (1 : ℚ))], 0 < r.2) ∧
     ([((0 : ℕ), (1 : ℚ))]).Pairwise (fun a b => b.2 ≤ a.2) ∧
     ([((0 : ℕ), (1 : ℚ))]).length ≤ 5) :=
  bm25_search_results_positive_sorted_bounded cfgDefault logOne stSearchW
    txtHello 5 [(0, 1)] (by decide)

/-- NaN is absorbing for the modelled JS multiplication. -/
theorem jmul_none (x : JSNum) : jmul none x = none := by
  cases x <;> rfl

/-- NaN is absorbing for the modelled JS addition. -/
theorem jadd_none (x : JSNum) : jadd x none = none := by
  cases x <;> rfl

/-- `addTermToDoc` keeps a zero-length document-frequency array zero-length:
the doubling of an empty `Uint32Array` allocates another empty array and the
increment is an out-of-bounds write. -/
theorem addTermToDoc_df_nil (st : BM25State) (dI : ℕ) (tokens : List String)
    (term : String) (h : st.documentFrequency = []) :
    (addTermToDoc st dI tokens term).documentFrequency = [] := by
  simp only [addTermToDoc]
  repeat' split
  all_goals simp_all [u32incr, h]

/-- The term loop of `addDocument` keeps an empty document-frequency array
empty. -/
theorem foldAddTerm_df_nil (dI : ℕ) (tokens : List String) :
    ∀ (terms : List String) (st : BM25State),
      st.documentFrequency = [] →
      (terms.foldl (fun s term => addTermToDoc s dI tokens term) st).documentFrequency = [] :=
  fun terms st h =>
    foldl_preserve (fun s => s.documentFrequency = [])
      (fun s term => addTermToDoc s dI tokens term)
      (fun s c hs => addTermToDoc_df_nil s dI tokens c hs) terms st h

/-- The field loop of `addDocument` keeps an empty document-frequency array
empty, whether it succeeds or throws. -/
theorem addFields_df_nil (cfg : BM25Config) (dI : ℕ) :
    ∀ (fields : List (String × String)) (acc : ℚ) (st st2 : BM25State),
      st.documentFrequency = [] →
      ((∀ e, addFields cfg dI fields acc st = .error (st2, e) →
          st2.documentFrequency = []) ∧
       (∀ r, addFields cfg dI fields acc st = .ok (st2, r) →
          st2.documentFrequency = [])) := by
  intro fields
  induction fields with
  | nil =>
    intro acc st st2 h
    constructor
    · intro e he
      exact absurd he (by simp [addFields])
    · intro r hr
      simp only [addFields, Except.ok.injEq, Prod.mk.injEq] at hr
      rw [← hr.1]
      exact h
  | cons fc rest ih =>
    intro acc st st2 h
    obtain ⟨fn, content⟩ := fc
    constructor
    · intro e he
      simp only [addFields] at he
      split at he
      · simp only [Except.error.injEq, Prod.mk.injEq] at he
        rw [← he.1]
        exact h
      · rename_i tokens heq
        exact (ih _ _ st2 (foldAddTerm_df_nil dI tokens (firstDedup tokens) st h)).1 e he
    · intro r hr
      simp only [addFields] at hr
      split at hr
      · exact absurd hr (by simp)
      · rename_i tokens heq
        exact (ih _ _ st2 (foldAddTerm_df_nil dI tokens (firstDedup tokens) st h)).2 r hr

/-- `addDocument` keeps an empty document-frequency array empty. -/
theorem addDocument_df_nil (cfg : BM25Config) (st : BM25State)
    (doc? : Option Doc) (h : st.documentFrequency = []) :
    ((addDocument cfg st doc?).1).documentFrequency = [] := by
  match doc? with
  | none => exact h
  | some doc =>
    simp only [addDocument]
    split
    · rename_i st2 e he
      exact (addFields_df_nil cfg st.documentLengths.length doc 0
        { st with documents := st.documents ++ [doc] } st2 h).1 e he
    · rename_i st2 r he
      exact (addFields_df_nil cfg st.documentLengths.length doc 0
        { st with documents := st.documents ++ [doc] } st2 h).2 r he

/-- An index populated exclusively through `addDocument` calls from the
empty state has an empty document-frequency array. -/
theorem addDocuments_df_nil (cfg : BM25Config) (docs : List Doc) :
    (addDocuments cfg emptyState docs).documentFrequency = [] :=
  foldl_preserve (fun s => s.documentFrequency = [])
    (fun s d => (addDocument cfg s (some d)).1)
    (fun s d hs => addDocument_df_nil cfg s (some d) hs) docs emptyState rfl

/-- With an empty document-frequency array every IDF read is out of bounds
and yields NaN. -/
theorem calculateIDF_none_of_df_nil (log : ℚ → ℚ) (st : BM25State) (ti : ℕ)
    (h : st.documentFrequency = []) : calculateIDF log st ti = none := by
  unfold calculateIDF
  rw [h]
  simp

/-- Adding a NaN contribution preserves the every-score-is-0-or-NaN
invariant. -/
theorem jwriteAdd_inv (sc : List JSNum) (i : ℕ)
    (h : ∀ s ∈ sc, s = some 0 ∨ s = none) :
    ∀ s ∈ jwriteAdd sc i none, s = some 0 ∨ s = none := by
  unfold jwriteAdd
  split
  · exact h
  · intro s hs
    rcases List.mem_or_eq_of_mem_set hs with h1 | h2
    · exact h s h1
    · right
      rw [h2]
      exact jadd_none _

/-- The per-document accumulation with a NaN IDF preserves the invariant. -/
theorem scoreDocFold_inv (k1 b avg : ℚ) (lengths : List ℕ)
    (tfs : List (ℕ × ℚ)) (scores : List JSNum)
    (h : ∀ s ∈ scores, s = some 0 ∨ s = none) :
    ∀ s ∈ scoreDocFold k1 b avg lengths none tfs scores,
      s = some 0 ∨ s = none := by
  refine foldl_preserve (fun sc => ∀ s ∈ sc, s = some 0 ∨ s = none)
    _ ?_ tfs scores h
  intro sc p hs
  dsimp only
  rw [jmul_none]
  exact jwriteAdd_inv sc p.1 hs

/-- One query-term step on an index with an empty document-frequency array
preserves the invariant. -/
theorem scoreStep_inv (cfg : BM25Config) (log : ℚ → ℚ) (st : BM25State)
    (hdf : st.documentFrequency = []) (scores : List JSNum) (term : String)
    (h : ∀ s ∈ scores, s = some 0 ∨ s = none) :
    ∀ s ∈ scoreStep cfg log st scores term, s = some 0 ∨ s = none := by
  unfold scoreStep
  split
  · exact h
  · rw [calculateIDF_none_of_df_nil log st _ hdf]
    exact scoreDocFold_inv _ _ _ _ _ scores h

/-- A score list of zeros and NaNs survives the positive filter as the
empty list. -/
theorem filterPos_nil (l : List (ℕ × JSNum))
    (h : ∀ p ∈ l, p.2 = some 0 ∨ p.2 = none) : filterPos l = [] := by
  induction l with
  | nil => rfl
  | cons p ps ih =>
    unfold filterPos
    simp only [List.filterMap_cons]
    rcases h p (by simp) with h1 | h1
    · rw [h1]
      simpa [filterPos] using ih (fun q hq => h q (by simp [hq]))
    · rw [h1]
      simpa [filterPos] using ih (fun q hq => h q (by simp [hq]))

/-- `search` over an index with an empty document-frequency array returns
the empty list for every non-empty query. -/
theorem search_empty_of_df_nil (cfg : BM25Config) (log : ℚ → ℚ)
    (st : BM25State) (q : String) (k : ℕ)
    (hdf : st.documentFrequency = []) (hq : q ≠ "") :
    search cfg log st q k = .ok [] := by
  unfold search
  simp only [tokenizeE, if_neg hq]
  have hI : ∀ s ∈ (cfg.tok q).foldl (scoreStep cfg log st)
      (List.replicate st.documentLengths.length (some (0 : ℚ))),
      s = some 0 ∨ s = none := by
    refine foldl_preserve (fun sc => ∀ s ∈ sc, s = some 0 ∨ s = none)
      (scoreStep cfg log st) ?_ (cfg.tok q) _ ?_
    · intro sc t hs
      exact scoreStep_inv cfg log st hdf sc t hs
    · intro s hs
      left
      exact List.eq_of_mem_replicate hs
  have hfp : filterPos (withIdx ((cfg.tok q).foldl (scoreStep cfg log st)
      (List.replicate st.documentLengths.length (some (0 : ℚ))))) = [] := by
    refine filterPos_nil _ ?_
    intro p hp
    exact hI p.2 (List.of_mem_zip (by exact hp)).2
  rw [hfp]
  simp [sortDesc]

/-- C9 counterexample: on an index populated only through `addDocument`
(term `hello` has id 0), `calculateIDF` does not return 0 — the document
frequency read is out of bounds (`undefined`), the `=== 0` guard fails, and
the arithmetic yields NaN. -/
theorem bm25_calculateIDF_nan_not_zero :
    stAfterAddHello.termToIndex = [(txtHello, 0)] ∧
    calculateIDF logZero stAfterAddHello 0 = none ∧
    (none : JSNum) ≠ some 0 := by
  refine ⟨by decide, by decide, by decide⟩

/-- C9 (amended): for every index populated exclusively through
`addDocument` calls from the empty state, the zero-length doubling bug keeps
the document-frequency array empty, so every IDF read is out of bounds and
yields NaN, every touched score is NaN, NaN fails the positive filter, and
`search` returns the empty list for every non-empty query. -/
theorem bm25_incremental_only_index_searches_empty :
    ∀ (cfg : BM25Config) (log : ℚ → ℚ) (docs : List Doc) (q : String) (k : ℕ),
      q ≠ "" →
      ((addDocuments cfg emptyState docs).documentFrequency = [] ∧
       search cfg log (addDocuments cfg emptyState docs) q k = .ok []) := by
  intro cfg log docs q k hq
  refine ⟨addDocuments_df_nil cfg docs, ?_⟩
  exact search_empty_of_df_nil cfg log _ q k (addDocuments_df_nil cfg docs) hq

/-- C9 witness: the amended theorem at a concrete one-document index and the
query `hello`. -/
theorem bm25_incremental_only_index_searches_empty_witness :
    ((addDocuments cfgDefault emptyState [docHello]).documentFrequency = [] ∧
     search cfgDefault logZero (addDocuments cfgDefault emptyState [docHello])
       txtHello 10 = .ok []) :=
  bm25_incremental_only_index_searches_empty cfgDefault logZero [docHello]
    txtHello 10 (by decide)

/-- Concatenating a pointwise-singleton function changes nothing. -/
theorem bind_id_of_forall {α : Type} (f : α → List α) :
    ∀ (l : List α), (∀ c ∈ l, f c = [c]) → l.flatMap f = l := by
  intro l
  induction l with
  | nil => intro _; rfl
  | cons x xs ih =>
    intro h
    simp only [List.flatMap_cons]
    rw [h x (by simp), ih (fun c hc => h c (by simp [hc]))]
    rfl

/-- Mapping a pointwise-identity function changes nothing. -/
theorem map_id_of_forall {α : Type} (f : α → α) :
    ∀ (l : List α), (∀ c ∈ l, f c = c) → l.map f = l := by
  intro l
  induction l with
  | nil => intro _; rfl
  | cons x xs ih =>
    intro h
    simp only [List.map_cons]
    rw [h x (by simp), ih (fun c hc => h c (by simp [hc]))]

/-- Characters of a collapsed list: the space, or non-whitespace input
characters. -/
theorem mem_collapseWs {α : Type} (S : CharSem α) :
    ∀ (l : List α) (b : Bool) (c : α), c ∈ collapseWs S b l →
      c = S.sp ∨ (c ∈ l ∧ S.isWs c = false) := by
  intro l
  induction l with
  | nil =>
    intro b c hc
    simp [collapseWs] at hc
  | cons x xs ih =>
    intro b c hc
    unfold collapseWs at hc
    split at hc
    · split at hc
      · rcases ih true c hc with h | ⟨h1, h2⟩
        · exact Or.inl h
        · exact Or.inr ⟨by simp [h1], h2⟩
      · rcases List.mem_cons.mp hc with h | h
        · exact Or.inl h
        · rcases ih true c h with h2 | ⟨h3, h4⟩
          · exact Or.inl h2
          · exact Or.inr ⟨by simp [h3], h4⟩
    · rcases List.mem_cons.mp hc with h | h
      · rename_i hxw
        rw [h]
        exact Or.inr ⟨by simp, by simpa using hxw⟩
      · rcases ih false c h with h2 | ⟨h3, h4⟩
        · exact Or.inl h2
        · exact Or.inr ⟨by simp [h3], h4⟩

/-- A collapse started in in-whitespace mode begins with a non-whitespace
character. -/
theorem collapseWs_head_not_ws {α : Type} (S : CharSem α) :
    ∀ (l : List α) (h : α), (collapseWs S true l).head? = some h →
      S.isWs h = false := by
  intro l
  induction l with
  | nil => intro h hh; cases hh
  | cons x xs ih =>
    intro h hh
    unfold collapseWs at hh
    split at hh
    · exact ih h hh
    · rename_i hxw
      injection hh with hh2
      rw [← hh2]
      simpa using hxw

/-- A collapsed list never has two adjacent whitespace characters. -/
theorem collapseWs_chain {α : Type} (S : CharSem α) :
    ∀ (l : List α) (b : Bool),
      (collapseWs S b l).Chain'
        (fun a c => ¬(S.isWs a = true ∧ S.isWs c = true)) := by
  intro l
  induction l with
  | nil => intro b; simp [collapseWs]
  | cons x xs ih =>
    intro b
    unfold collapseWs
    split
    · split
      · exact ih true
      · rw [List.chain'_cons']
        refine ⟨?_, ih true⟩
        intro y hy
        intro hcontra
        exact absurd (collapseWs_head_not_ws S xs y (Option.mem_def.mp hy))
          (by simp [hcontra.2])
    · rename_i hxw
      rw [List.chain'_cons']
      refine ⟨?_, ih false⟩
      intro y _ hcontra
      exact absurd hcontra.1 (by simpa using hxw)

/-- Members of the trailing-whitespace trim are members of the input. -/
theorem mem_dropTrailingWs {α : Type} (S : CharSem α) :
    ∀ (l : List α) (c : α), c ∈ dropTrailingWs S l → c ∈ l := by
  intro l
  induction l with
  | nil => intro c hc; cases hc
  | cons x xs ih =>
    intro c hc
    unfold dropTrailingWs at hc
    split at hc
    · split at hc
      · cases hc
      · rcases List.mem_cons.mp hc with h | h
        · simp [h]
        · cases h
    · rcases List.mem_cons.mp hc with h | h
      · simp [h]
      · right
        exact ih c h

/-- The trailing trim is empty or keeps the head of the list. -/
theorem dropTrailingWs_head {α : Type} (S : CharSem α) :
    ∀ (l : List α), dropTrailingWs S l = [] ∨
      (dropTrailingWs S l).head? = l.head? := by
  intro l
  cases l with
  | nil => exact Or.inl rfl
  | cons x xs =>
    unfold dropTrailingWs
    split
    · split
      · exact Or.inl rfl
      · exact Or.inr rfl
    · exact Or.inr rfl

/-- Chains survive `dropWhile`. -/
theorem chain_dropWhile {α : Type} (R : α → α → Prop) (p : α → Bool) :
    ∀ (l : List α), l.Chain' R → (l.dropWhile p).Chain' R := by
  intro l
  induction l with
  | nil => intro h; exact h
  | cons x xs ih =>
    intro h
    rw [List.dropWhile_cons]
    split
    · exact ih h.tail
    · exact h

/-- Chains survive the trailing-whitespace trim. -/
theorem chain_dropTrailingWs {α : Type} (S : CharSem α)
    (R : α → α → Prop) :
    ∀ (l : List α), l.Chain' R → (dropTrailingWs S l).Chain' R := by
  intro l
  induction l with
  | nil => intro h; exact h
  | cons x xs ih =>
    intro h
    unfold dropTrailingWs
    split
    · split
      · simp
      · simp
    · rename_i hne
      rw [List.chain'_cons']
      constructor
      · intro y hy
        rcases dropTrailingWs_head S xs with h1 | h1
        · rw [h1] at hne; simp at hne
        · apply (List.chain'_cons'.mp h).1
          rw [← h1]
          exact hy
      · exact ih h.tail

/-- The head surviving `dropWhile p` fails `p`. -/
theorem head_dropWhile_not {α : Type} (p : α → Bool) :
    ∀ (l : List α) (h : α), (l.dropWhile p).head? = some h → p h = false := by
  intro l
  induction l with
  | nil => intro h hh; cases hh
  | cons x xs ih =>
    intro h hh
    rw [List.dropWhile_cons] at hh
    split at hh
    · exact ih h hh
    · rename_i hx
      injection hh with hh2
      rw [← hh2]
      simpa using hx

/-- The last character surviving the trailing trim is not whitespace. -/
theorem dropTrailingWs_last_not_ws {α : Type} (S : CharSem α) :
    ∀ (l : List α) (x : α), (dropTrailingWs S l).getLast? = some x →
      S.isWs x = false := by
  intro l
  induction l with
  | nil => intro x hx; cases hx
  | cons c cs ih =>
    intro x hx
    unfold dropTrailingWs at hx
    split at hx
    · split at hx
      · cases hx
      · rename_i hcw
        have hx2 : c = x := by simpa using hx
        rw [← hx2]
        simpa using hcw
    · rename_i hne
      cases hR : dropTrailingWs S cs with
      | nil => rw [hR] at hne; simp at hne
      | cons r0 rs =>
        rw [hR, List.getLast?_cons_cons] at hx
        refine ih x ?_
        rw [hR]
        exact hx

/-- A list with no adjacent whitespace, all of whose whitespace characters
are the space, whose head is non-whitespace when the flag asks for it, is a
fixed point of the collapse. -/
theorem collapseWs_stable {α : Type} (S : CharSem α) :
    ∀ (l : List α) (b : Bool),
      l.Chain' (fun a c => ¬(S.isWs a = true ∧ S.isWs c = true)) →
      (∀ c ∈ l, S.isWs c = true → c = S.sp) →
      (b = true → ∀ h, l.head? = some h → S.isWs h = false) →
      collapseWs S b l = l := by
  intro l
  induction l with
  | nil => intro b _ _ _; rfl
  | cons x xs ih =>
    intro b hchain hsp hhead
    unfold collapseWs
    split
    · rename_i hxw
      cases b with
      | true => exact absurd (hhead rfl x rfl) (by simp [hxw])
      | false =>
        have hx : x = S.sp := hsp x (by simp) hxw
        rw [ih true hchain.tail (fun c hc hcw => hsp c (by simp [hc]) hcw) ?_]
        · rw [hx]
          simp
        · intro _ h hh
          by_contra hcontra
          exact (List.chain'_cons'.mp hchain).1 h (Option.mem_def.mpr hh)
            ⟨hxw, by simpa using hcontra⟩
    · rw [ih false hchain.tail (fun c hc hcw => hsp c (by simp [hc]) hcw)
        (by intro hcontra; cases hcontra)]

/-- A list whose head fails `p` is a fixed point of `dropWhile p`. -/
theorem dropWhile_stable {α : Type} (p : α → Bool) :
    ∀ (l : List α), (∀ h, l.head? = some h → p h = false) →
      l.dropWhile p = l := by
  intro l
  cases l with
  | nil => intro _; rfl
  | cons x xs =>
    intro h
    rw [List.dropWhile_cons, if_neg (by simp [h x rfl])]

/-- A list whose last character is not whitespace is a fixed point of the
trailing trim. -/
theorem dropTrailingWs_stable {α : Type} (S : CharSem α) :
    ∀ (l : List α), (∀ x, l.getLast? = some x → S.isWs x = false) →
      dropTrailingWs S l = l := by
  intro l
  induction l with
  | nil => intro _; rfl
  | cons c cs ih =>
    intro h
    unfold dropTrailingWs
    cases cs with
    | nil =>
      have hnil : dropTrailingWs S ([] : List α) = [] := rfl
      rw [hnil]
      simp only [List.isEmpty_nil, if_true]
      rw [if_neg (by simp [h c (by simp)])]
    | cons c1 cs1 =>
      have hrec : dropTrailingWs S (c1 :: cs1) = c1 :: cs1 := by
        apply ih
        intro x hx
        apply h
        rw [List.getLast?_cons_cons]
        exact hx
      rw [hrec]
      simp

/-- Members of `dropWhile` are members of the input. -/
theorem mem_dropWhile {α : Type} (p : α → Bool) :
    ∀ (l : List α) (c : α), c ∈ l.dropWhile p → c ∈ l := by
  intro l
  induction l with
  | nil => intro c hc; exact hc
  | cons x xs ih =>
    intro c hc
    rw [List.dropWhile_cons] at hc
    split at hc
    · exact List.mem_cons_of_mem x (ih c hc)
    · exact hc

/-- Every character of a cleaned text is the space or a character that
survives every removal stage and was produced by the NFKD stage. -/
theorem cleanText_char_class {α : Type} (S : CharSem α) (xs : List α) :
    ∀ c ∈ cleanText S xs, c = S.sp ∨ (Survivor S c ∧ ∃ e, c ∈ S.nfkd e) := by
  intro c hc
  simp only [cleanText, trimWs] at hc
  have hc1 := mem_dropTrailingWs S _ c hc
  have hc2 := mem_dropWhile _ _ c hc1
  rcases mem_collapseWs S _ false c hc2 with hsp | ⟨hmem, hnws⟩
  · exact Or.inl hsp
  · obtain ⟨c7, hc7, he8⟩ := List.mem_map.mp hmem
    by_cases hk : S.isKept c7 = true
    · rw [if_pos hk] at he8
      obtain ⟨c6, hc6, he7⟩ := List.mem_map.mp hc7
      by_cases hp : S.isPunct c6 = true
      · rw [if_pos hp] at he7
        exact Or.inl (he7.trans he8).symm
      · rw [if_neg hp] at he7
        have hcc : c6 = c := he7.trans he8
        subst hcc
        subst he8
        have h6 := List.mem_filter.mp hc6
        have h5 := List.mem_filter.mp h6.1
        have h4 := List.mem_filter.mp h5.1
        have h3 := List.mem_filter.mp h4.1
        obtain ⟨e, _, hce⟩ := List.mem_flatMap.mp h3.1
        refine Or.inr ⟨⟨hk, ?_, ?_, ?_, ?_, by simpa using hp, hnws⟩, e, hce⟩
        · simpa using h3.2
        · simpa using h4.2
        · simpa using h5.2
        · simpa using h6.2
    · rw [if_neg hk] at he8
      exact Or.inl he8.symm

/-- A list of stage-invariant characters with collapsed, trimmed whitespace
is a fixed point of `cleanText`. -/
theorem cleanText_fixed {α : Type} (S : CharSem α) (l : List α)
    (hlower : ∀ c ∈ l, S.lower c = [c])
    (hnfkd : ∀ c ∈ l, S.nfkd c = [c])
    (hctl : ∀ c ∈ l, S.isCtl c = false)
    (hcomb : ∀ c ∈ l, S.isComb c = false)
    (hemoji : ∀ c ∈ l, S.isEmoji c = false)
    (htm : ∀ c ∈ l, S.isTm c = false)
    (hpunct : ∀ c ∈ l, S.isPunct c = false)
    (hkept : ∀ c ∈ l, S.isKept c = true)
    (hwssp : ∀ c ∈ l, S.isWs c = true → c = S.sp)
    (hchain : l.Chain' (fun a c => ¬(S.isWs a = true ∧ S.isWs c = true)))
    (hhead : ∀ h, l.head? = some h → S.isWs h = false)
    (hlast : ∀ x, l.getLast? = some x → S.isWs x = false) :
    cleanText S l = l := by
  have e1 : l.flatMap S.lower = l := bind_id_of_forall S.lower l hlower
  have e2 : l.flatMap S.nfkd = l := bind_id_of_forall S.nfkd l hnfkd
  have e3 : l.filter (fun c => !S.isCtl c) = l :=
    List.filter_eq_self.mpr (fun c hc => by simp [hctl c hc])
  have e4 : l.filter (fun c => !S.isComb c) = l :=
    List.filter_eq_self.mpr (fun c hc => by simp [hcomb c hc])
  have e5 : l.filter (fun c => !S.isEmoji c) = l :=
    List.filter_eq_self.mpr (fun c hc => by simp [hemoji c hc])
  have e6 : l.filter (fun c => !S.isTm c) = l :=
    List.filter_eq_self.mpr (fun c hc => by simp [htm c hc])
  have e7 : l.map (fun c => if S.isPunct c then S.sp else c) = l :=
    map_id_of_forall _ l (fun c hc => by rw [if_neg (by simp [hpunct c hc])])
  have e8 : l.map (fun c => if S.isKept c then c else S.sp) = l :=
    map_id_of_forall _ l (fun c hc => by rw [if_pos (hkept c hc)])
  have e9 : collapseWs S false l = l :=
    collapseWs_stable S l false hchain hwssp (by intro hcontra; cases hcontra)
  have e10 : l.dropWhile (fun c => S.isWs c) = l :=
    dropWhile_stable _ l hhead
  have e11 : dropTrailingWs S l = l := dropTrailingWs_stable S l hlast
  simp only [cleanText, trimWs]
  rw [e1, e2, e3, e4, e5, e6, e7, e8, e9, e10, e11]

/-- C8: `cleanText` is idempotent.  The Unicode-dependent primitives (the
case mapping, NFKD, and the regex property classes) are parameters of the
model, constrained by `CharSemOK`: facts that hold of the Unicode character
database — the space passes every stage as itself, and NFKD output that
survives all removal stages (lower-case ASCII alphanumerics, kana, CJK
ideographs, Hangul-range code points) is fixed by the case mapping and by
NFKD. -/
theorem tokenizer_cleanText_idempotent :
    ∀ {α : Type} (S : CharSem α), CharSemOK S → ∀ (xs : List α),
      cleanText S (cleanText S xs) = cleanText S xs := by
  intro α S hOK xs
  have hclass := cleanText_char_class S xs
  have hchar : ∀ c ∈ cleanText S xs,
      (S.lower c = [c] ∧ S.nfkd c = [c] ∧ S.isCtl c = false ∧
       S.isComb c = false ∧ S.isEmoji c = false ∧ S.isTm c = false ∧
       S.isPunct c = false ∧ S.isKept c = true ∧
       (S.isWs c = true → c = S.sp)) := by
    intro c hc
    rcases hclass c hc with hsp | ⟨hs, e, he⟩
    · rw [hsp]
      exact ⟨hOK.lower_sp, hOK.nfkd_sp, hOK.ctl_sp, hOK.comb_sp,
        hOK.emoji_sp, hOK.tm_sp, hOK.punct_sp, hOK.kept_sp, fun _ => rfl⟩
    · have hstable := hOK.stable e c he hs
      exact ⟨hstable.1, hstable.2, hs.2.1, hs.2.2.1, hs.2.2.2.1,
        hs.2.2.2.2.1, hs.2.2.2.2.2.1, hs.1,
        fun hw => absurd hw (by simp [hs.2.2.2.2.2.2])⟩
  have hchain : (cleanText S xs).Chain'
      (fun a c => ¬(S.isWs a = true ∧ S.isWs c = true)) := by
    simp only [cleanText, trimWs]
    exact chain_dropTrailingWs S _ _ (chain_dropWhile _ _ _ (collapseWs_chain S _ false))
  have hhead : ∀ h, (cleanText S xs).head? = some h → S.isWs h = false := by
    intro h hh
    simp only [cleanText, trimWs] at hh
    rcases dropTrailingWs_head S _ with h1 | h1
    · rw [h1] at hh; cases hh
    · rw [h1] at hh
      exact head_dropWhile_not _ _ h hh
  have hlast : ∀ x, (cleanText S xs).getLast? = some x → S.isWs x = false := by
    intro x hx
    simp only [cleanText, trimWs] at hx
    exact dropTrailingWs_last_not_ws S _ x hx
  exact cleanText_fixed S (cleanText S xs)
    (fun c hc => (hchar c hc).1)
    (fun c hc => (hchar c hc).2.1)
    (fun c hc => (hchar c hc).2.2.1)
    (fun c hc => (hchar c hc).2.2.2.1)
    (fun c hc => (hchar c hc).2.2.2.2.1)
    (fun c hc => (hchar c hc).2.2.2.2.2.1)
    (fun c hc => (hchar c hc).2.2.2.2.2.2.1)
    (fun c hc => (hchar c hc).2.2.2.2.2.2.2.1)
    (fun c hc => (hchar c hc).2.2.2.2.2.2.2.2)
    hchain hhead hlast

/-- A three-character test alphabet for the witness: 0 is the space, 1 an
ordinary kept letter, 2 an emoji-class character. -/
def semFin3 : CharSem (Fin 3) :=
  { lower := fun c => [c]
    nfkd := fun c => [c]
    isCtl := fun _ => false
    isComb := fun _ => false
    isEmoji := fun c => decide (c = 2)
    isTm := fun _ => false
    isPunct := fun _ => false
    isKept := fun _ => true
    isWs := fun c => decide (c = 0)
    sp := 0 }

/-- The test alphabet satisfies the Unicode-table hypotheses. -/
theorem semFin3_ok : CharSemOK semFin3 :=
  { ws_sp := by decide
    lower_sp := rfl
    nfkd_sp := rfl
    ctl_sp := rfl
    comb_sp := rfl
    emoji_sp := by decide
    tm_sp := rfl
    punct_sp := rfl
    kept_sp := rfl
    stable := fun _ _ _ _ => ⟨rfl, rfl⟩ }

/-- C8 witness: the idempotence theorem applied to the concrete test
alphabet and a sample list (an emoji, two spaces, a letter, a space). -/
theorem tokenizer_cleanText_idempotent_witness :
    cleanText semFin3 (cleanText semFin3 ([2, 0, 0, 1, 0] : List (Fin 3))) =
      cleanText semFin3 ([2, 0, 0, 1, 0] : List (Fin 3)) :=
  tokenizer_cleanText_idempotent semFin3 semFin3_ok [2, 0, 0, 1, 0]

end FastBM25
